import Mathlib

/-!
# Verification of smartlog's redaction and bounded-size serialization engine

This development embeds, in Lean, the core algorithms of the `smartlog`
repository:

* `redact`, `redactHeaders`, `redactJSONBody` (redaction.go) — the recursive,
  case-insensitive redaction transform over decoded JSON documents and
  HTTP header maps;
* `logResult` (gorm_plugin.go) — the size-bounded serializer that truncates a
  large query-result object to fit a byte budget.

Decoded JSON documents (Go `interface\x7b\x7d` trees produced by
`encoding/json`) are modelled by the inductive type `Json`; Go maps are
modelled by association lists (iteration order corresponds to list order,
and claims about map semantics carry `Nodup`/permutation hypotheses).
Byte lengths (`len` on Go's UTF-8 strings) are modelled by `blen`, the sum
of the UTF-8 sizes of the characters.  Scalar numbers are modelled as
integers rendered in decimal, matching `encoding/json`'s rendering of
integral `float64` values of small magnitude.
-/

namespace Smartlog

/-- A decoded JSON document, as `encoding/json` decodes into a Go
`interface\x7b\x7d`: an object (`map[string]interface\x7b\x7d`, modelled as an
association list), an array (`[]interface\x7b\x7d`), or a scalar. -/
inductive Json : Type where
  | null : Json
  | bool (b : Bool) : Json
  | num (n : Int) : Json
  | str (s : String) : Json
  | arr (xs : List Json) : Json
  | obj (fields : List (String × Json)) : Json

mutual

/-- Structural equality test on documents. -/
def Json.beq : Json → Json → Bool
  | .null, .null => true
  | .bool a, .bool b => a == b
  | .num a, .num b => a == b
  | .str a, .str b => a == b
  | .arr a, .arr b => Json.beqList a b
  | .obj a, .obj b => Json.beqFields a b
  | _, _ => false
termination_by structural x => x

/-- Structural equality test on arrays. -/
def Json.beqList : List Json → List Json → Bool
  | u :: us, w :: ws => Json.beq u w && Json.beqList us ws
  | [], [] => true
  | _, _ => false
termination_by structural x => x

/-- Structural equality test on object field lists. -/
def Json.beqFields : List (String × Json) → List (String × Json) → Bool
  | (ka, va) :: fs, (kb, vb) :: gs =>
      ka == kb && Json.beq va vb && Json.beqFields fs gs
  | [], [] => true
  | _, _ => false
termination_by structural x => x

end

mutual

theorem Json.beq_iff_eq : ∀ a b : Json, Json.beq a b = true ↔ a = b
  | .null, .null => by simp [Json.beq]
  | .bool _, .bool _ => by simp [Json.beq]
  | .num _, .num _ => by simp [Json.beq]
  | .str _, .str _ => by simp [Json.beq]
  | .arr x, .arr y => by simp [Json.beq, Json.beqList_iff_eq x y]
  | .obj x, .obj y => by simp [Json.beq, Json.beqFields_iff_eq x y]
  | .null, .bool _ | .null, .num _ | .null, .str _ | .null, .arr _ | .null, .obj _
  | .bool _, .null | .bool _, .num _ | .bool _, .str _ | .bool _, .arr _ | .bool _, .obj _
  | .num _, .null | .num _, .bool _ | .num _, .str _ | .num _, .arr _ | .num _, .obj _
  | .str _, .null | .str _, .bool _ | .str _, .num _ | .str _, .arr _ | .str _, .obj _
  | .arr _, .null | .arr _, .bool _ | .arr _, .num _ | .arr _, .str _ | .arr _, .obj _
  | .obj _, .null | .obj _, .bool _ | .obj _, .num _ | .obj _, .str _ | .obj _, .arr _ =>
      by simp [Json.beq]
termination_by structural a => a

theorem Json.beqList_iff_eq : ∀ a b : List Json, Json.beqList a b = true ↔ a = b
  | u :: us, w :: ws => by
      simp [Json.beqList, Json.beq_iff_eq u w, Json.beqList_iff_eq us ws]
  | [], [] => by simp [Json.beqList]
  | [], _ :: _ => by simp [Json.beqList]
  | _ :: _, [] => by simp [Json.beqList]
termination_by structural a => a

theorem Json.beqFields_iff_eq :
    ∀ a b : List (String × Json), Json.beqFields a b = true ↔ a = b
  | (ka, va) :: fs, (kb, vb) :: gs => by
      simp [Json.beqFields, Json.beq_iff_eq va vb, Json.beqFields_iff_eq fs gs, and_assoc]
  | [], [] => by simp [Json.beqFields]
  | [], _ :: _ => by simp [Json.beqFields]
  | _ :: _, [] => by simp [Json.beqFields]
termination_by structural a => a

end

instance : DecidableEq Json := fun a b => decidable_of_iff _ (Json.beq_iff_eq a b)

/-- UTF-8 byte length of a character list, modelling Go's `len` on a string. -/
def blen (l : List Char) : Nat := (l.map Char.utf8Size).sum

/-- Lower-case hexadecimal digit, as used by `encoding/json`'s `\u` escapes. -/
def hexDigit (n : Nat) : Char :=
  if n < 10 then Char.ofNat (48 + n) else Char.ofNat (87 + n)

/-- A `\uXXXX` escape sequence for a character. -/
def uEscape (c : Char) : List Char :=
  ['\\', 'u', hexDigit (c.toNat / 4096 % 16), hexDigit (c.toNat / 256 % 16),
   hexDigit (c.toNat / 16 % 16), hexDigit (c.toNat % 16)]

/-- How `encoding/json` (with its default HTML escaping) encodes one
character of a string value. -/
def escChar (c : Char) : List Char :=
  if c = '"' ∨ c = '\\' then ['\\', c]
  else if c = '\n' then ['\\', 'n']
  else if c = '\r' then ['\\', 'r']
  else if c = '\t' then ['\\', 't']
  else if c.toNat < 32 ∨ c = '<' ∨ c = '>' ∨ c = '&' ∨
          c.toNat = 8232 ∨ c.toNat = 8233 then uEscape c
  else [c]

/-- JSON string literal encoding, `encoding/json` style: quotes around the
escaped characters. -/
def quoteStr (s : String) : List Char := '"' :: (s.data.map escChar).flatten ++ ['"']

/-- The rendering of a single object member, `"key":value`. -/
def fieldPart (k : String) (sv : List Char) : List Char := quoteStr k ++ ':' :: sv

/-- Lexicographic comparison of character lists by code point.  On UTF-8
text this agrees with Go's byte-wise string comparison (`s1 <= s2`), the
order used both by `sort.Strings` and by `encoding/json`'s map-key sort. -/
def lexLeb : List Char → List Char → Bool
  | [], _ => true
  | _ :: _, [] => false
  | a :: as, b :: bs =>
    if a.toNat < b.toNat then true
    else if b.toNat < a.toNat then false
    else lexLeb as bs

/-- The Go string order `a <= b`. -/
def keyLe (a b : String) : Bool := lexLeb a.data b.data

/-- Sorting of rendered object members by key: `encoding/json` marshals a
`map[string]interface\x7b\x7d` with its keys in ascending lexicographic
(byte-wise) order. -/
def sortPairs (ps : List (String × List Char)) : List (String × List Char) :=
  List.insertionSort (fun a b => keyLe a.1 b.1 = true) ps

/-- Comma-separated joining of rendered items, as the encoder emits array
elements and object members. -/
def commaJoin : List (List Char) → List Char
  | [] => []
  | [x] => x
  | x :: y :: rest => x ++ ',' :: commaJoin (y :: rest)

mutual

/-- Canonical serialization of a document: `encoding/json.Marshal` applied to
the decoded `interface\x7b\x7d` tree (minimal whitespace, object keys sorted
ascending). -/
def serialize : Json → List Char
  | .null => 'n' :: 'u' :: 'l' :: ['l']
  | .bool true => 't' :: 'r' :: 'u' :: ['e']
  | .bool false => 'f' :: 'a' :: 'l' :: 's' :: ['e']
  | .num n => (toString n).data
  | .str s => quoteStr s
  | .arr xs => '[' :: commaJoin (serializeList xs) ++ [']']
  | .obj fs => '\x7b' :: commaJoin
      ((sortPairs (serializeFields fs)).map (fun p => fieldPart p.1 p.2)) ++ ['\x7d']
termination_by structural x => x

/-- Serializations of the elements of an array. -/
def serializeList : List Json → List (List Char)
  | [] => []
  | x :: xs => serialize x :: serializeList xs
termination_by structural x => x

/-- Each object member paired with its serialized value. -/
def serializeFields : List (String × Json) → List (String × List Char)
  | [] => []
  | (k, v) :: fs => (k, serialize v) :: serializeFields fs
termination_by structural x => x

end

/-! ## The redaction transform (redaction.go) -/

/-- The fixed replacement string, `redactionPlaceholder` in redaction.go. -/
def redactionPlaceholder : String := "[REDACTED]"

/-- The function `strings.ToLower`, applied character by character.  (Go lower-cases the full
Unicode range; the claims only exercise the mapping's role as a
normalisation applied identically to both sides of every comparison.) -/
def lowerStr (s : String) : String := String.mk (s.data.map Char.toLower)

/-- Membership of `k` in the redaction key map: redaction.go builds a set of
the lower-cased keys (`keyMap`) and tests `strings.ToLower(key)` against it. -/
def matchesKey (keysToRedact : List String) (k : String) : Bool :=
  (keysToRedact.map lowerStr).contains (lowerStr k)

mutual

/-- The function `redact` from redaction.go: build a new object; a key whose lower-cased
form is in the key set gets the placeholder value; otherwise the value is
transformed by the type switch (`redactValue` below). -/
def redact : List (String × Json) → List String → List (String × Json)
  | [], _ => []
  | (k, v) :: rest, keysToRedact =>
    (k, if matchesKey keysToRedact k then Json.str redactionPlaceholder
        else redactValue v keysToRedact) :: redact rest keysToRedact
termination_by structural x => x

/-- The `switch v := value.(type)` in `redact`, applied to a non-matching
entry's value: objects are redacted recursively; arrays are rebuilt
element-wise (`redactElems`); anything else is carried over unchanged.
The new array is built by `append` onto a nil `[]interface\x7b\x7d`:
for an empty input array no append runs, the stored slice stays nil, and
`encoding/json` marshals a nil slice as `null` — values here are observed
only through serialization, so that nil slice is modelled as `Json.null`. -/
def redactValue : Json → List String → Json
  | Json.obj fs, keysToRedact => Json.obj (redact fs keysToRedact)
  | Json.arr [], _ => Json.null
  | Json.arr (x :: xs), keysToRedact => Json.arr (redactElems (x :: xs) keysToRedact)
  | v, _ => v
termination_by structural x => x

/-- The per-element loop over an array value: an element that is itself an
object is recursively redacted; every other element is appended as is. -/
def redactElems : List Json → List String → List Json
  | [], _ => []
  | Json.obj fs :: xs, keysToRedact =>
      Json.obj (redact fs keysToRedact) :: redactElems xs keysToRedact
  | x :: xs, keysToRedact => x :: redactElems xs keysToRedact
termination_by structural x => x

end

/-- The function `redactHeaders` from redaction.go: with an empty key set the input map is
returned itself; otherwise a new map is built in which a case-insensitively
matching key keeps its spelling but its whole value sequence is replaced by
the one-element placeholder sequence, and a non-matching entry is carried
over (sharing the original value slice). -/
def redactHeaders (headers : List (String × List String)) (keysToRedact : List String) :
    List (String × List String) :=
  if keysToRedact = [] then headers
  else headers.map (fun p =>
    if matchesKey keysToRedact p.1 then (p.1, [redactionPlaceholder]) else p)

/-- The function `redactJSONBody` from redaction.go.  `json.Unmarshal` into a
`map[string]interface\x7b\x7d` is the library capability that parses a byte
body into a top-level object; it is passed in as `parse` (`none` models an
unmarshal error).  `json.Marshal` of a decoded tree of these value shapes
cannot fail, so the marshal-error fallback of the source is not reachable
in the model. -/
def redactJSONBody (parse : String → Option (List (String × Json)))
    (body : String) (keysToRedact : List String) : String :=
  if keysToRedact = [] ∨ body = "" then body
  else
    match parse body with
    | none => body
    | some data => String.mk (serialize (Json.obj (redact data keysToRedact)))

/-! ## The bounded result serializer (gorm_plugin.go, `logResult`) -/

/-- The quantity `len(json.Marshal(map[string]interface\x7b\x7d\x7bkey: value\x7d))`:
the serialized size of the singleton object holding one field. -/
def sizeSingleton (k : String) (v : Json) : Nat :=
  blen (serialize (Json.obj [(k, v)]))

/-- Go map indexing on the decoded object (association list). -/
def lookupJ : List (String × Json) → String → Option Json
  | [], _ => none
  | (k, v) :: rest, key => if k = key then some v else lookupJ rest key

/-- The key collection of `logResult`: all keys of the object, sorted
ascending by `sort.Strings`. -/
def sortedKeys (data : List (String × Json)) : List String :=
  List.insertionSort (fun a b => keyLe a b = true) (data.map Prod.fst)

/-- The greedy field-addition loop of `logResult`: walk the sorted keys,
skip `"ID"` (already added), and for each field check
`currentSize + len(fieldJSON) - 1 > budget`; on the first failure `break`
(a hard stop), otherwise append the field and advance the accumulator. -/
def addFields (data : List (String × Json)) (budget : Nat) :
    List String → Nat → List (String × Json) → Nat × List (String × Json)
  | [], cs, acc => (cs, acc)
  | k :: ks, cs, acc =>
    if k = "ID" then addFields data budget ks cs acc
    else
      let v := (lookupJ data k).getD Json.null
      if cs + (sizeSingleton k v - 1) > budget then (cs, acc)
      else addFields data budget ks (cs + (sizeSingleton k v - 1)) (acc ++ [(k, v)])

/-- The accumulator initialisation of `logResult`: `currentSize := 2` for the
empty-object delimiters, and if the object has an `"ID"` field it is added
unconditionally, its singleton size minus one added to the accumulator. -/
def truncInit (data : List (String × Json)) : Nat × List (String × Json) :=
  match lookupJ data "ID" with
  | some id => (2 + (sizeSingleton "ID" id - 1), [("ID", id)])
  | none => (2, [])

/-- The truncated object built by `logResult` for an object-shaped result. -/
def truncObj (data : List (String × Json)) (budget : Nat) : List (String × Json) :=
  (addFields data budget (sortedKeys data) (truncInit data).1 (truncInit data).2).2

/-- The result bytes logged by `logResult` in gorm_plugin.go.
`resultJSON = json.Marshal(dest)` is `serialize v`; when the byte limit is
positive and exceeded, `json.Unmarshal(resultJSON, &data)` re-decodes it —
that unmarshal cannot fail on `Marshal` output, so the
`resultJSON[:maxBytes]` fallback branch of the source is unreachable.
If the decoded value is an object, the greedy truncation runs and the
truncated map is marshalled; otherwise the source evaluates
`data.(map[string]interface\x7b\x7d)["ID"]`, whose single-valued type
assertion fails and **panics** — modelled as `none`. -/
def logResult (v : Json) (maxBytes : Int) : Option String :=
  if 0 < maxBytes ∧ maxBytes < (blen (serialize v) : Int) then
    match v with
    | Json.obj data => some (String.mk (serialize (Json.obj (truncObj data maxBytes.toNat))))
    | _ => none
  else some (String.mk (serialize v))

/-! ## Order theory for the key comparison -/

theorem Char.toNat_injective {a b : Char} (h : a.toNat = b.toNat) : a = b := by
  cases a; cases b
  simp only [Char.toNat] at h
  congr 1
  exact UInt32.toNat.inj h

theorem lexLeb_total : ∀ a b : List Char, lexLeb a b = true ∨ lexLeb b a = true
  | [], _ => Or.inl rfl
  | _ :: _, [] => Or.inr rfl
  | a :: as, b :: bs => by
      rcases Nat.lt_trichotomy a.toNat b.toNat with h | h | h
      · left; simp [lexLeb, h]
      · have : ¬ a.toNat < b.toNat := by omega
        have h2 : ¬ b.toNat < a.toNat := by omega
        rcases lexLeb_total as bs with ih | ih
        · left; simp [lexLeb, this, h2, ih]
        · right; simp [lexLeb, this, h2, ih]
      · right; simp [lexLeb, h]

theorem lexLeb_trans : ∀ {a b c : List Char},
    lexLeb a b = true → lexLeb b c = true → lexLeb a c = true
  | [], _, _, _, _ => rfl
  | a :: as, b :: bs, [], _, h2 => by simp [lexLeb] at h2
  | a :: as, [], c, h1, _ => by simp [lexLeb] at h1
  | a :: as, b :: bs, c :: cs, h1, h2 => by
      simp only [lexLeb] at h1 h2 ⊢
      split_ifs at h1 h2 ⊢ with hab hba hbc hcb hac hca <;>
        first
          | rfl
          | omega
          | (exact lexLeb_trans h1 h2)

theorem lexLeb_antisymm : ∀ {a b : List Char},
    lexLeb a b = true → lexLeb b a = true → a = b
  | [], [], _, _ => rfl
  | [], _ :: _, _, h2 => by simp [lexLeb] at h2
  | _ :: _, [], h1, _ => by simp [lexLeb] at h1
  | a :: as, b :: bs, h1, h2 => by
      simp only [lexLeb] at h1 h2
      split_ifs at h1 h2 with hab hba
      · omega
      · have hn : a.toNat = b.toNat := by omega
        rw [Char.toNat_injective hn, lexLeb_antisymm h1 h2]

theorem keyLe_total (a b : String) : keyLe a b = true ∨ keyLe b a = true :=
  lexLeb_total a.data b.data

theorem keyLe_trans {a b c : String} (h1 : keyLe a b = true) (h2 : keyLe b c = true) :
    keyLe a c = true :=
  lexLeb_trans h1 h2

theorem keyLe_antisymm {a b : String} (h1 : keyLe a b = true) (h2 : keyLe b a = true) :
    a = b :=
  String.ext (lexLeb_antisymm h1 h2)

instance : IsTotal String (fun a b => keyLe a b = true) := ⟨keyLe_total⟩

instance : IsTrans String (fun a b => keyLe a b = true) := ⟨fun _ _ _ => keyLe_trans⟩

instance : IsAntisymm String (fun a b => keyLe a b = true) := ⟨fun _ _ => keyLe_antisymm⟩

instance : IsTotal (String × List Char) (fun a b => keyLe a.1 b.1 = true) :=
  ⟨fun a b => keyLe_total a.1 b.1⟩

instance : IsTrans (String × List Char) (fun a b => keyLe a.1 b.1 = true) :=
  ⟨fun _ _ _ => keyLe_trans⟩

/-! ## Lemmas about the redaction transform -/

theorem matchesKey_iff {keysToRedact : List String} {k : String} :
    matchesKey keysToRedact k = true ↔
      ∃ k0 ∈ keysToRedact, lowerStr k0 = lowerStr k := by
  simp only [matchesKey, List.contains_iff_exists_mem_beq, List.mem_map, beq_iff_eq]
  constructor
  · rintro ⟨a, ⟨k0, hk0, rfl⟩, h⟩
    exact ⟨k0, hk0, h.symm⟩
  · rintro ⟨k0, hk0, h⟩
    exact ⟨lowerStr k0, ⟨k0, hk0, rfl⟩, h.symm⟩

mutual

theorem redact_idem : ∀ (d : List (String × Json)) (keys : List String),
    redact (redact d keys) keys = redact d keys
  | [], _ => rfl
  | (k, v) :: rest, keys => by
      by_cases h : matchesKey keys k <;>
        simp [redact, h, redact_idem rest keys, redactValue_idem v keys]
termination_by structural d => d

theorem redactValue_idem : ∀ (v : Json) (keys : List String),
    redactValue (redactValue v keys) keys = redactValue v keys
  | Json.obj fs, keys => by simp [redactValue, redact_idem fs keys]
  | Json.arr [], keys => by simp [redactValue]
  | Json.arr (x :: xs), keys => by
      have h := redactElems_idem (x :: xs) keys
      cases x <;> simp only [redactValue, redactElems] at h ⊢ <;> rw [h]
  | Json.null, keys => rfl
  | Json.bool b, keys => rfl
  | Json.num n, keys => rfl
  | Json.str s, keys => rfl
termination_by structural v => v

theorem redactElems_idem : ∀ (xs : List Json) (keys : List String),
    redactElems (redactElems xs keys) keys = redactElems xs keys
  | [], _ => rfl
  | Json.obj fs :: xs, keys => by
      simp [redactElems, redact_idem fs keys, redactElems_idem xs keys]
  | Json.null :: xs, keys => by simp [redactElems, redactElems_idem xs keys]
  | Json.bool b :: xs, keys => by simp [redactElems, redactElems_idem xs keys]
  | Json.num n :: xs, keys => by simp [redactElems, redactElems_idem xs keys]
  | Json.str s :: xs, keys => by simp [redactElems, redactElems_idem xs keys]
  | Json.arr ys :: xs, keys => by simp [redactElems, redactElems_idem xs keys]
termination_by structural xs => xs

end

theorem matchesKey_congr {k1 k2 : List String} (k : String)
    (h : k1.map lowerStr = k2.map lowerStr) : matchesKey k1 k = matchesKey k2 k := by
  simp only [matchesKey, h]

mutual

theorem redact_congr : ∀ (d : List (String × Json)) {k1 k2 : List String},
    k1.map lowerStr = k2.map lowerStr → redact d k1 = redact d k2
  | [], _, _, _ => rfl
  | (k, v) :: rest, k1, k2, h => by
      simp only [redact, matchesKey_congr k h, redact_congr rest h,
        redactValue_congr v h]
termination_by structural d => d

theorem redactValue_congr : ∀ (v : Json) {k1 k2 : List String},
    k1.map lowerStr = k2.map lowerStr → redactValue v k1 = redactValue v k2
  | Json.obj fs, _, _, h => by simp only [redactValue, redact_congr fs h]
  | Json.arr [], _, _, _ => rfl
  | Json.arr (x :: xs), _, _, h => by
      simp only [redactValue, redactElems_congr (x :: xs) h]
  | Json.null, _, _, _ => rfl
  | Json.bool b, _, _, _ => rfl
  | Json.num n, _, _, _ => rfl
  | Json.str s, _, _, _ => rfl
termination_by structural v => v

theorem redactElems_congr : ∀ (xs : List Json) {k1 k2 : List String},
    k1.map lowerStr = k2.map lowerStr → redactElems xs k1 = redactElems xs k2
  | [], _, _, _ => rfl
  | Json.obj fs :: xs, _, _, h => by
      simp only [redactElems, redact_congr fs h, redactElems_congr xs h]
  | Json.null :: xs, _, _, h => by
      simp only [redactElems, redactElems_congr xs h]
  | Json.bool b :: xs, _, _, h => by
      simp only [redactElems, redactElems_congr xs h]
  | Json.num n :: xs, _, _, h => by
      simp only [redactElems, redactElems_congr xs h]
  | Json.str s :: xs, _, _, h => by
      simp only [redactElems, redactElems_congr xs h]
  | Json.arr ys :: xs, _, _, h => by
      simp only [redactElems, redactElems_congr xs h]
termination_by structural xs => xs

end

/-! ## Claim C4 -/

/-- C4: redaction is idempotent — for every decoded JSON object `d` and
every key set `keys`, `redact(redact(d, keys), keys) == redact(d, keys)`. -/
theorem claim_C4 (d : List (String × Json)) (keys : List String) :
    redact (redact d keys) keys = redact d keys :=
  redact_idem d keys

/-! ## Claim C6 -/

/-- C6: for every raw body that is empty or that `json.Unmarshal` fails to
parse as a JSON object, and every key set, `redactJSONBody` returns exactly
the original input bytes — a silent pass-through, not an error. -/
theorem claim_C6 (parse : String → Option (List (String × Json)))
    (body : String) (keysToRedact : List String)
    (h : body = "" ∨ parse body = none) :
    redactJSONBody parse body keysToRedact = body := by
  rcases h with h | h
  · simp [redactJSONBody, h]
  · unfold redactJSONBody
    split_ifs with hif
    · rfl
    · rw [h]

/-- Witness for C6 at a concrete unparseable body. -/
theorem claim_C6_witness :
    redactJSONBody (fun _ => none) "not a json" ["password"] = "not a json" :=
  claim_C6 (fun _ => none) "not a json" ["password"] (Or.inr rfl)

/-! ## Claim C7 -/

/-- C7: for every header map and non-empty key set, `redactHeaders` replaces
the whole value sequence of each case-insensitively matching key with the
one-element sequence `["[REDACTED]"]`, preserving the key's spelling, and
carries every non-matching entry's value sequence over unchanged; it is one
level deep (an entry's value sequence is the only thing inspected). -/
theorem claim_C7 (headers : List (String × List String)) (keysToRedact : List String)
    (hne : keysToRedact ≠ []) :
    (redactHeaders headers keysToRedact).length = headers.length ∧
    (∀ k vs, (k, vs) ∈ headers → (∃ k0 ∈ keysToRedact, lowerStr k0 = lowerStr k) →
        (k, [redactionPlaceholder]) ∈ redactHeaders headers keysToRedact) ∧
    (∀ k vs, (k, vs) ∈ headers → (∀ k0 ∈ keysToRedact, lowerStr k0 ≠ lowerStr k) →
        (k, vs) ∈ redactHeaders headers keysToRedact) := by
  unfold redactHeaders
  rw [if_neg hne]
  refine ⟨List.length_map _ _, ?_, ?_⟩
  · intro k vs hmem hmatch
    have hx : matchesKey keysToRedact k = true := matchesKey_iff.mpr hmatch
    refine List.mem_map.mpr ⟨(k, vs), hmem, ?_⟩
    simp [hx]
  · intro k vs hmem hmatch
    have hx : ¬ matchesKey keysToRedact k = true := by
      intro hc
      obtain ⟨k0, hk0, heq⟩ := matchesKey_iff.mp hc
      exact hmatch k0 hk0 heq
    refine List.mem_map.mpr ⟨(k, vs), hmem, ?_⟩
    simp [hx]

/-- Witness for C7 at the spec's example header map. -/
theorem claim_C7_witness :
    ("Authorization", [redactionPlaceholder]) ∈
      redactHeaders [("Authorization", ["Bearer x"]), ("Content-Type", ["application/json"])]
        ["authorization"] ∧
    ("Content-Type", ["application/json"]) ∈
      redactHeaders [("Authorization", ["Bearer x"]), ("Content-Type", ["application/json"])]
        ["authorization"] := by
  have h := claim_C7 [("Authorization", ["Bearer x"]), ("Content-Type", ["application/json"])]
    ["authorization"] (by decide)
  exact ⟨h.2.1 "Authorization" ["Bearer x"] (by decide) ⟨"authorization", by decide, by decide⟩,
    h.2.2 "Content-Type" ["application/json"] (by decide) (by decide)⟩

/-! ## Claim C8 -/

/-- C8: redaction with an empty key set is the identity transform in both
variants — `redactJSONBody(body, [])` returns the input bytes and
`redactHeaders(headers, [])` returns the input header map (the source
returns the original references without building a copy). -/
theorem claim_C8 (parse : String → Option (List (String × Json)))
    (body : String) (headers : List (String × List String)) :
    redactJSONBody parse body [] = body ∧ redactHeaders headers [] = headers := by
  constructor
  · simp [redactJSONBody]
  · simp [redactHeaders]

/-! ## Claim C9 -/

/-- C9: key matching is case-insensitive — two key lists with the same
lower-cased forms produce identical results, in both the document and the
header variant. -/
theorem claim_C9 (d : List (String × Json)) (headers : List (String × List String))
    (k1 k2 : List String) (h : k1.map lowerStr = k2.map lowerStr) :
    redact d k1 = redact d k2 ∧ redactHeaders headers k1 = redactHeaders headers k2 := by
  refine ⟨redact_congr d h, ?_⟩
  unfold redactHeaders
  have hnil : k1 = [] ↔ k2 = [] := by
    constructor <;> intro hx <;> subst hx <;> simpa using h.symm
  by_cases h1 : k1 = []
  · rw [if_pos h1, if_pos (hnil.mp h1)]
  · rw [if_neg h1, if_neg (fun h2 => h1 (hnil.mpr h2))]
    exact List.map_congr_left (fun p _ => by rw [matchesKey_congr p.1 h])

/-- Witness for C9: `["Password"]`, `["password"]` and `["PASSWORD"]` agree on
a concrete document and header map. -/
theorem claim_C9_witness :
    (redact [("Password", Json.str "s"), ("user", Json.str "u")] ["Password"] =
       redact [("Password", Json.str "s"), ("user", Json.str "u")] ["password"] ∧
     redactHeaders [("Password", ["s"])] ["Password"] =
       redactHeaders [("Password", ["s"])] ["password"]) ∧
    (redact [("Password", Json.str "s"), ("user", Json.str "u")] ["password"] =
       redact [("Password", Json.str "s"), ("user", Json.str "u")] ["PASSWORD"] ∧
     redactHeaders [("Password", ["s"])] ["password"] =
       redactHeaders [("Password", ["s"])] ["PASSWORD"]) :=
  ⟨claim_C9 _ _ ["Password"] ["password"] (by decide),
   claim_C9 _ _ ["password"] ["PASSWORD"] (by decide)⟩

/-! ## Claim C5 -/

/-- Unfolding of the per-element array loop as a `map`. -/
theorem redactElems_eq_map : ∀ (xs : List Json) (keysToRedact : List String),
    redactElems xs keysToRedact = xs.map (fun e =>
      match e with
      | Json.obj fs => Json.obj (redact fs keysToRedact)
      | other => other)
  | [], _ => rfl
  | Json.obj fs :: xs, keys => by
      simp only [redactElems, List.map, redactElems_eq_map xs keys]
  | Json.null :: xs, keys => by
      simp only [redactElems, List.map, redactElems_eq_map xs keys]
  | Json.bool b :: xs, keys => by
      simp only [redactElems, List.map, redactElems_eq_map xs keys]
  | Json.num n :: xs, keys => by
      simp only [redactElems, List.map, redactElems_eq_map xs keys]
  | Json.str s :: xs, keys => by
      simp only [redactElems, List.map, redactElems_eq_map xs keys]
  | Json.arr ys :: xs, keys => by
      simp only [redactElems, List.map, redactElems_eq_map xs keys]

/-- Modelled from the spec: the behaviour C5 claims for an array value under a
non-matching key — "replace it with a new array where each element that is
itself an object is recursively redacted, and every other element is carried
over unchanged". -/
def specC5ArrayValue (xs : List Json) (keysToRedact : List String) : Json :=
  Json.arr (xs.map (fun e =>
    match e with
    | Json.obj fs => Json.obj (redact fs keysToRedact)
    | other => other))

/-- Counterexample to C5 as stated: for an **empty** array value the source
appends nothing to the nil slice it starts from, and `encoding/json`
marshals the stored nil slice as `null`, not as an (empty) array. -/
theorem claim_C5_counterexample :
    redact [("a", Json.arr [])] ["x"] ≠ [("a", specC5ArrayValue [] ["x"])] ∧
    redact [("a", Json.arr [])] ["x"] = [("a", Json.null)] := by
  constructor
  · intro h
    simp [redact, redactValue, matchesKey, specC5ArrayValue, lowerStr] at h
  · rfl

/-- C5 (amended): for an object entry whose key does not match the key set
and whose value is a **non-empty** array, redact replaces the value with a
new array whose object elements are recursively redacted and whose other
elements are carried over unchanged (arrays of scalars are never redacted
element-wise); an **empty** array value is replaced by null (the nil-slice
marshalling artefact). -/
theorem claim_C5 (k : String) (xs : List Json) (keysToRedact : List String)
    (rest : List (String × Json)) (hk : matchesKey keysToRedact k = false) :
    redact ((k, Json.arr xs) :: rest) keysToRedact =
      (k, if xs = [] then Json.null else specC5ArrayValue xs keysToRedact) ::
        redact rest keysToRedact := by
  cases xs with
  | nil => simp [redact, hk, redactValue]
  | cons x xs =>
      simp only [redact, hk, Bool.false_eq_true, if_false, redactValue,
        specC5ArrayValue, List.cons_ne_self, redactElems_eq_map]
      simp

/-- Witness for C5 (amended) at the spec's own example: an array of two user
objects, key set `["api_key"]`. -/
theorem claim_C5_witness :
    matchesKey ["api_key"] "users" = false ∧
    redact [("users", Json.arr
        [Json.obj [("name", Json.str "a"), ("api_key", Json.str "k1")],
         Json.obj [("name", Json.str "b"), ("api_key", Json.str "k2")]])] ["api_key"] =
      [("users", if ([Json.obj [("name", Json.str "a"), ("api_key", Json.str "k1")],
         Json.obj [("name", Json.str "b"), ("api_key", Json.str "k2")]] : List Json) = []
        then Json.null
        else specC5ArrayValue
          [Json.obj [("name", Json.str "a"), ("api_key", Json.str "k1")],
           Json.obj [("name", Json.str "b"), ("api_key", Json.str "k2")]] ["api_key"])] ∧
    specC5ArrayValue
        [Json.obj [("name", Json.str "a"), ("api_key", Json.str "k1")],
         Json.obj [("name", Json.str "b"), ("api_key", Json.str "k2")]] ["api_key"] =
      Json.arr
        [Json.obj [("name", Json.str "a"), ("api_key", Json.str "[REDACTED]")],
         Json.obj [("name", Json.str "b"), ("api_key", Json.str "[REDACTED]")]] :=
  ⟨by decide, claim_C5 "users" _ ["api_key"] [] (by decide), by decide⟩

/-! ## Claim C10 -/

/-- C10: for every body that parses as a JSON object and every non-empty key
set, `redactJSONBody` returns the canonical re-serialization (`json.Marshal`:
keys ascending, minimal whitespace) of the redacted document; the rendered
member list is sorted by key, so the returned bytes can differ from the
input bytes even when no key matches anywhere (witness below). -/
theorem claim_C10 (parse : String → Option (List (String × Json)))
    (body : String) (keysToRedact : List String) (data : List (String × Json))
    (hp : parse body = some data) (hk : keysToRedact ≠ []) (hb : body ≠ "") :
    redactJSONBody parse body keysToRedact =
      String.mk (serialize (Json.obj (redact data keysToRedact))) ∧
    List.Sorted (fun a b => keyLe a.1 b.1 = true)
      (sortPairs (serializeFields (redact data keysToRedact))) := by
  constructor
  · unfold redactJSONBody
    rw [if_neg (by simp [hk, hb]), hp]
  · exact List.sorted_insertionSort _ _

/-- Witness for C10: the parsed object `\x7b"b":1,"a":2\x7d` with a key set
that matches nothing — the value survives unchanged, yet the re-serialized
bytes (keys now sorted) differ from the input bytes. -/
theorem claim_C10_witness :
    redactJSONBody
        (fun s => if s = "\x7b\"b\":1,\"a\":2\x7d"
          then some [("b", Json.num 1), ("a", Json.num 2)] else none)
        "\x7b\"b\":1,\"a\":2\x7d" ["z"] =
      String.mk (serialize (Json.obj (redact [("b", Json.num 1), ("a", Json.num 2)] ["z"]))) ∧
    redact [("b", Json.num 1), ("a", Json.num 2)] ["z"] =
      [("b", Json.num 1), ("a", Json.num 2)] ∧
    redactJSONBody
        (fun s => if s = "\x7b\"b\":1,\"a\":2\x7d"
          then some [("b", Json.num 1), ("a", Json.num 2)] else none)
        "\x7b\"b\":1,\"a\":2\x7d" ["z"] ≠ "\x7b\"b\":1,\"a\":2\x7d" :=
  ⟨(claim_C10 _ _ _ _ (by decide) (by decide) (by decide)).1, by decide, by decide⟩

/-! ## Claim C2 -/

/-- C2: the claim says a decoded **non-object** value whose serialization
exceeds a positive budget falls back to the raw byte slice
`resultJSON[:budget]`.  The source only takes that fallback when
`json.Unmarshal` errors, which cannot happen on `json.Marshal` output;
instead `data.(map[string]interface\x7b\x7d)["ID"]` panics on the non-map
value.  Evaluated at the failing input (a JSON array, 14 bytes, budget 5),
the model's panic outcome (`none`) is reached: the code fails rather than
returning 5 raw bytes. -/
theorem claim_C2 :
    blen (serialize (Json.arr [Json.str "0123456789"])) = 14 ∧
    logResult (Json.arr [Json.str "0123456789"]) 5 = none := by
  constructor
  · decide
  · decide

/-! ## Byte-length accounting for the serializer -/

theorem blen_nil : blen [] = 0 := rfl

theorem blen_cons (c : Char) (l : List Char) : blen (c :: l) = c.utf8Size + blen l := by
  simp [blen]

theorem blen_append (a b : List Char) : blen (a ++ b) = blen a + blen b := by
  simp [blen]

theorem blen_commaJoin : ∀ ps : List (List Char), ps ≠ [] →
    blen (commaJoin ps) = (ps.map blen).sum + ps.length - 1
  | [], h => absurd rfl h
  | [x], _ => by simp [commaJoin]
  | x :: y :: rest, _ => by
      have ih := blen_commaJoin (y :: rest) (by simp)
      have hpos : 1 ≤ ((y :: rest).map blen).sum + (y :: rest).length := by
        simp only [List.map_cons, List.length_cons]
        omega
      simp only [commaJoin, blen_append, blen_cons, ih] at *
      simp only [List.map_cons, List.sum_cons, List.length_cons] at *
      have hcomma : (',' : Char).utf8Size = 1 := rfl
      omega

/-- The serialized size of one rendered object member. -/
def pblen (p : String × Json) : Nat := blen (fieldPart p.1 (serialize p.2))

theorem serializeFields_eq_map : ∀ fs : List (String × Json),
    serializeFields fs = fs.map (fun p => (p.1, serialize p.2))
  | [] => rfl
  | (k, v) :: fs => by simp only [serializeFields, List.map, serializeFields_eq_map fs]

theorem blen_serialize_obj (fs : List (String × Json)) (h : fs ≠ []) :
    blen (serialize (Json.obj fs)) = 2 + ((fs.map pblen).sum + fs.length - 1) := by
  have hbrace : ('\x7b' : Char).utf8Size = 1 ∧ ('\x7d' : Char).utf8Size = 1 := ⟨rfl, rfl⟩
  rw [serialize]
  set parts := (sortPairs (serializeFields fs)).map (fun p => fieldPart p.1 p.2) with hparts
  have hperm : (sortPairs (serializeFields fs)).Perm (serializeFields fs) :=
    List.perm_insertionSort _ _
  have hplen : parts.length = fs.length := by
    rw [hparts, List.length_map, hperm.length_eq, serializeFields_eq_map, List.length_map]
  have hpsum : (parts.map blen).sum = (fs.map pblen).sum := by
    rw [hparts, List.map_map]
    refine ((hperm.map (blen ∘ fun p => fieldPart p.1 p.2)).sum_eq).trans ?_
    rw [serializeFields_eq_map, List.map_map]
    rfl
  have hne : parts ≠ [] := by
    rw [← List.length_pos_iff_ne_nil, hplen, List.length_pos_iff_ne_nil]
    exact h
  rw [blen_append, blen_cons, blen_commaJoin parts hne, hpsum, hplen]
  have hone : blen ['\x7d'] = 1 := rfl
  have hfs : 1 ≤ (fs.map pblen).sum + fs.length := by
    have : fs.length ≠ 0 := by
      simpa [List.length_eq_zero] using h
    omega
  omega

theorem blen_serialize_obj_nil : blen (serialize (Json.obj [])) = 2 := rfl

theorem sizeSingleton_eq (k : String) (v : Json) :
    sizeSingleton k v = pblen (k, v) + 2 := by
  rw [sizeSingleton, blen_serialize_obj [(k, v)] (by simp)]
  simp only [List.map_cons, List.map_nil, List.sum_cons, List.sum_nil,
    List.length_cons, List.length_nil]
  omega

theorem pblen_pos (p : String × Json) : 1 ≤ pblen p := by
  rcases p with ⟨k, v⟩
  simp only [pblen, fieldPart]
  rw [blen_append, blen_cons]
  have : (':' : Char).utf8Size = 1 := rfl
  omega

theorem lookupJ_mem : ∀ (d : List (String × Json)) (k : String) (v : Json),
    lookupJ d k = some v → (k, v) ∈ d
  | [], _, _, h => by simp [lookupJ] at h
  | (k0, v0) :: rest, k, v, h => by
      by_cases hk : k0 = k
      · subst hk
        simp only [lookupJ, if_true, Option.some.injEq, eq_self_iff_true, ite_true] at h
        subst h
        exact List.mem_cons_self _ _
      · simp only [lookupJ] at h
        rw [if_neg hk] at h
        exact List.mem_cons_of_mem _ (lookupJ_mem rest k v h)

theorem truncInit_some {data : List (String × Json)} {id : Json}
    (h : lookupJ data "ID" = some id) :
    truncInit data = (2 + (sizeSingleton "ID" id - 1), [("ID", id)]) := by
  unfold truncInit
  rw [h]

theorem truncInit_none {data : List (String × Json)}
    (h : lookupJ data "ID" = none) : truncInit data = (2, []) := by
  unfold truncInit
  rw [h]

/-- The invariant of the greedy field loop: the accumulator equals
`2 + Σ pblen + |acc|` (the "minus one byte" accounting), it never exceeds
`budget + 1`, and entries already accumulated are never dropped. -/
theorem addFields_spec (data : List (String × Json)) (budget : Nat) :
    ∀ (ks : List String) (cs : Nat) (acc : List (String × Json)),
      cs = 2 + (acc.map pblen).sum + acc.length →
      cs ≤ budget + 1 →
      (addFields data budget ks cs acc).1 =
          2 + ((addFields data budget ks cs acc).2.map pblen).sum +
            (addFields data budget ks cs acc).2.length ∧
      (addFields data budget ks cs acc).1 ≤ budget + 1 ∧
      ∀ e ∈ acc, e ∈ (addFields data budget ks cs acc).2 := by
  intro ks
  induction ks with
  | nil => exact fun cs acc h1 h2 => ⟨h1, h2, fun e he => he⟩
  | cons k ks ih =>
      intro cs acc h1 h2
      rw [addFields]
      by_cases hid : k = "ID"
      · rw [if_pos hid]
        exact ih cs acc h1 h2
      · rw [if_neg hid]
        set v := (lookupJ data k).getD Json.null with hv
        by_cases hguard : cs + (sizeSingleton k v - 1) > budget
        · rw [if_pos hguard]
          exact ⟨h1, h2, fun e he => he⟩
        · rw [if_neg hguard]
          have hσ := sizeSingleton_eq k v
          have hnew : cs + (sizeSingleton k v - 1) =
              2 + ((acc ++ [(k, v)]).map pblen).sum + (acc ++ [(k, v)]).length := by
            rw [List.map_append, List.sum_append, List.length_append]
            simp only [List.map_cons, List.map_nil, List.sum_cons, List.sum_nil,
              List.length_cons, List.length_nil]
            omega
          have hle : cs + (sizeSingleton k v - 1) ≤ budget + 1 := by omega
          obtain ⟨g1, g2, g3⟩ := ih _ _ hnew hle
          exact ⟨g1, g2, fun e he => g3 e (List.mem_append_left _ he)⟩

/-! ## Claim C3 -/

/-- The singleton field-list form of the accumulator invariant. -/
theorem initInv_ID (id : Json) : 2 + (sizeSingleton "ID" id - 1) =
    2 + (([("ID", id)].map pblen).sum) + [("ID", id)].length := by
  have hσ := sizeSingleton_eq "ID" id
  simp only [List.map_cons, List.map_nil, List.sum_cons, List.sum_nil,
    List.length_cons, List.length_nil]
  omega

/-- Under a budget of at least 2 that accommodates the identity-only
singleton, the truncated object's serialization fits the budget. -/
theorem truncObj_blen_le (data : List (String × Json)) (budget : Nat)
    (h2 : 2 ≤ budget)
    (hID : ∀ id, lookupJ data "ID" = some id → sizeSingleton "ID" id ≤ budget) :
    blen (serialize (Json.obj (truncObj data budget))) ≤ budget := by
  have main : ∀ (cs : Nat) (acc : List (String × Json)),
      cs = 2 + (acc.map pblen).sum + acc.length →
      cs ≤ budget + 1 →
      blen (serialize (Json.obj
        ((addFields data budget (sortedKeys data) cs acc).2))) ≤ budget := by
    intro cs acc h1 hle
    obtain ⟨g1, g2, _⟩ := addFields_spec data budget (sortedKeys data) cs acc h1 hle
    rcases hm : (addFields data budget (sortedKeys data) cs acc).2 with _ | ⟨p, m⟩
    · rw [blen_serialize_obj_nil]
      omega
    · rw [hm] at g1
      rw [blen_serialize_obj _ (by simp)]
      have hlen : 1 ≤ ((p :: m).map pblen).sum + (p :: m).length := by
        simp only [List.map_cons, List.sum_cons, List.length_cons]
        omega
      omega
  rcases hinit : lookupJ data "ID" with _ | id
  · rw [truncObj, truncInit_none hinit]
    exact main 2 [] (by simp) (by omega)
  · rw [truncObj, truncInit_some hinit]
    refine main _ _ (initInv_ID id) ?_
    have := hID id hinit
    omega

/-- The identity field, once added by the initialisation, survives the
greedy loop. -/
theorem truncObj_mem_ID (data : List (String × Json)) (budget : Nat) (id : Json)
    (hid : lookupJ data "ID" = some id)
    (hle : 2 + (sizeSingleton "ID" id - 1) ≤ budget + 1) :
    ("ID", id) ∈ truncObj data budget := by
  rw [truncObj, truncInit_some hid]
  obtain ⟨_, _, g3⟩ :=
    addFields_spec data budget (sortedKeys data) _ _ (initInv_ID id) hle
  exact g3 ("ID", id) (List.mem_cons_self _ _)

/-- C3: for an object-shaped value and a budget of at least 2 bytes that
accommodates the identity-field-only singleton object (when the object has
an `"ID"` field), the logged bytes are the serialization of a document
(hence valid JSON), that document keeps the `"ID"` field whenever the input
has one, and its byte length never exceeds the budget — under this premise
the "except when the identity field alone forces it over" escape clause is
never needed. -/
theorem claim_C3 (data : List (String × Json)) (b : Int)
    (hb2 : 2 ≤ b)
    (hID : ∀ id, lookupJ data "ID" = some id → (sizeSingleton "ID" id : Int) ≤ b) :
    ∃ m', logResult (Json.obj data) b = some (String.mk (serialize (Json.obj m'))) ∧
      (∀ id, lookupJ data "ID" = some id → ("ID", id) ∈ m') ∧
      (blen (serialize (Json.obj m')) : Int) ≤ b := by
  by_cases htrig : 0 < b ∧ b < (blen (serialize (Json.obj data)) : Int)
  · refine ⟨truncObj data b.toNat, ?_, ?_, ?_⟩
    · rw [logResult, if_pos htrig]
    · intro id hid
      refine truncObj_mem_ID data b.toNat id hid ?_
      have := hID id hid
      omega
    · have key := truncObj_blen_le data b.toNat (by omega)
        (fun id hid => by have := hID id hid; omega)
      omega
  · refine ⟨data, ?_, ?_, ?_⟩
    · rw [logResult, if_neg htrig]
    · intro id hid
      exact lookupJ_mem data "ID" id hid
    · omega

/-- Witness for C3: a two-field object whose full serialization (24 bytes)
exceeds the budget 12; the truncated output keeps exactly the `"ID"` field
and fits. -/
theorem claim_C3_witness :
    (2 : Int) ≤ 12 ∧
    ∃ m', logResult (Json.obj [("ID", Json.num 1), ("Name", Json.str "abcdef")]) 12 =
        some (String.mk (serialize (Json.obj m'))) ∧
      (∀ id, lookupJ [("ID", Json.num 1), ("Name", Json.str "abcdef")] "ID" = some id →
        ("ID", id) ∈ m') ∧
      (blen (serialize (Json.obj m')) : Int) ≤ 12 := by
  refine ⟨by norm_num, claim_C3 [("ID", Json.num 1), ("Name", Json.str "abcdef")] 12
    (by norm_num) ?_⟩
  intro id h
  have hl : lookupJ [("ID", Json.num 1), ("Name", Json.str "abcdef")] "ID" =
      some (Json.num 1) := rfl
  rw [hl, Option.some.injEq] at h
  subst h
  decide

/-! ## Permutation invariance (independence of map iteration order) -/

instance : IsAntisymm (String × List Char)
    (fun a b => keyLe a.1 b.1 = true ∧ a.1 ≠ b.1) :=
  ⟨fun _ _ h1 h2 => absurd (keyLe_antisymm h1.1 h2.1) h1.2⟩

theorem sortPairs_eq_of_perm {ps₁ ps₂ : List (String × List Char)} (h : ps₁.Perm ps₂)
    (hnd : (ps₁.map Prod.fst).Nodup) : sortPairs ps₁ = sortPairs ps₂ := by
  have hperm : (sortPairs ps₁).Perm (sortPairs ps₂) :=
    (List.perm_insertionSort _ ps₁).trans (h.trans (List.perm_insertionSort _ ps₂).symm)
  have hne₁ : List.Pairwise (fun a b : String × List Char => a.1 ≠ b.1) (sortPairs ps₁) := by
    refine ((List.perm_insertionSort _ ps₁).pairwise_iff (fun h => h.symm)).mpr ?_
    exact (List.pairwise_map.mp hnd)
  have hne₂ : List.Pairwise (fun a b : String × List Char => a.1 ≠ b.1) (sortPairs ps₂) := by
    refine ((List.perm_insertionSort _ ps₂).pairwise_iff (fun h => h.symm)).mpr ?_
    exact List.pairwise_map.mp ((h.map Prod.fst).nodup_iff.mp hnd)
  exact List.eq_of_perm_of_sorted hperm
    ((List.sorted_insertionSort _ ps₁).and hne₁)
    ((List.sorted_insertionSort _ ps₂).and hne₂)

theorem serializeFields_fst (fs : List (String × Json)) :
    (serializeFields fs).map Prod.fst = fs.map Prod.fst := by
  rw [serializeFields_eq_map, List.map_map]
  rfl

theorem serialize_obj_perm {d₁ d₂ : List (String × Json)} (h : d₁.Perm d₂)
    (hnd : (d₁.map Prod.fst).Nodup) :
    serialize (Json.obj d₁) = serialize (Json.obj d₂) := by
  rw [serialize, serialize]
  have hsf : sortPairs (serializeFields d₁) = sortPairs (serializeFields d₂) := by
    refine sortPairs_eq_of_perm ?_ ?_
    · rw [serializeFields_eq_map, serializeFields_eq_map]
      exact h.map _
    · rw [serializeFields_fst]
      exact hnd
  rw [hsf]

theorem lookupJ_perm {d₁ d₂ : List (String × Json)} (h : d₁.Perm d₂) :
    (d₁.map Prod.fst).Nodup → ∀ k, lookupJ d₁ k = lookupJ d₂ k := by
  induction h with
  | nil => exact fun _ _ => rfl
  | cons x h ih =>
      intro hnd k
      rcases x with ⟨a, b⟩
      rw [List.map_cons] at hnd
      have hnd' := (List.nodup_cons.mp hnd).2
      simp only [lookupJ]
      rw [ih hnd' k]
  | swap x y l =>
      intro hnd k
      rcases x with ⟨a, b⟩
      rcases y with ⟨c, e⟩
      rw [List.map_cons, List.map_cons] at hnd
      have h1 := (List.nodup_cons.mp hnd).1
      have hac : c ≠ a := fun hca => h1 (hca ▸ List.mem_cons_self _ _)
      simp only [lookupJ]
      by_cases hc : c = k <;> by_cases ha : a = k
      · exact absurd (hc.trans ha.symm) hac
      · rw [if_pos hc, if_neg ha, if_pos hc]
      · rw [if_neg hc, if_pos ha, if_pos ha]
      · rw [if_neg hc, if_neg ha, if_neg ha, if_neg hc]
  | trans h₁ h₂ ih₁ ih₂ =>
      intro hnd k
      rw [ih₁ hnd k, ih₂ ((h₁.map Prod.fst).nodup_iff.mp hnd) k]

theorem sortedKeys_eq_of_perm {d₁ d₂ : List (String × Json)} (h : d₁.Perm d₂) :
    sortedKeys d₁ = sortedKeys d₂ :=
  List.eq_of_perm_of_sorted
    ((List.perm_insertionSort _ _).trans
      ((h.map Prod.fst).trans (List.perm_insertionSort _ _).symm))
    (List.sorted_insertionSort _ _) (List.sorted_insertionSort _ _)

theorem addFields_congr {d₁ d₂ : List (String × Json)} (budget : Nat)
    (hl : ∀ k, lookupJ d₁ k = lookupJ d₂ k) :
    ∀ (ks : List String) (cs : Nat) (acc : List (String × Json)),
      addFields d₁ budget ks cs acc = addFields d₂ budget ks cs acc := by
  intro ks
  induction ks with
  | nil => intro cs acc; rfl
  | cons k ks ih =>
      intro cs acc
      rw [addFields, addFields, hl k]
      by_cases hid : k = "ID"
      · rw [if_pos hid, if_pos hid]
        exact ih cs acc
      · rw [if_neg hid, if_neg hid]
        by_cases hg : cs + (sizeSingleton k ((lookupJ d₂ k).getD Json.null) - 1) > budget
        · rw [if_pos hg, if_pos hg]
        · rw [if_neg hg, if_neg hg]
          exact ih _ _

theorem truncObj_perm {d₁ d₂ : List (String × Json)} (budget : Nat) (h : d₁.Perm d₂)
    (hnd : (d₁.map Prod.fst).Nodup) : truncObj d₁ budget = truncObj d₂ budget := by
  have hl := lookupJ_perm h hnd
  have hti : truncInit d₁ = truncInit d₂ := by
    unfold truncInit
    rw [hl "ID"]
  rw [truncObj, truncObj, sortedKeys_eq_of_perm h, hti, addFields_congr budget hl]

/-- The value of `logResult` on an object-shaped input, with the decoded-object branch of
the type switch resolved. -/
theorem logResult_obj (data : List (String × Json)) (b : Int) :
    logResult (Json.obj data) b =
      if 0 < b ∧ b < (blen (serialize (Json.obj data)) : Int)
      then some (String.mk (serialize (Json.obj (truncObj data b.toNat))))
      else some (String.mk (serialize (Json.obj data))) := by
  rw [logResult]

/-! ## Output field order of the truncated object -/

/-- The included fields sorted ascending by key, the order in which
`json.Marshal` emits the members of the truncated map. -/
def sortFields (fs : List (String × Json)) : List (String × Json) :=
  List.insertionSort (fun a b => keyLe a.1 b.1 = true) fs

/-- Rendering of an object's members **in the given list order** (no
sorting): braces around the comma-joined `"key":value` parts. -/
def renderInOrder (fs : List (String × Json)) : List Char :=
  '\x7b' :: commaJoin (fs.map (fun p => fieldPart p.1 (serialize p.2))) ++ ['\x7d']

theorem orderedInsert_fmap (p : String × Json) : ∀ l : List (String × Json),
    List.orderedInsert (fun a b => keyLe a.1 b.1 = true)
        (p.1, serialize p.2) (l.map (fun q => (q.1, serialize q.2))) =
      (List.orderedInsert (fun a b => keyLe a.1 b.1 = true) p l).map
        (fun q => (q.1, serialize q.2))
  | [] => rfl
  | q :: l => by
      simp only [List.map_cons, List.orderedInsert]
      by_cases h : keyLe p.1 q.1 = true
      · rw [if_pos h, if_pos h]
        rfl
      · rw [if_neg h, if_neg h, orderedInsert_fmap p l]
        rfl

theorem insertionSort_fmap : ∀ fs : List (String × Json),
    List.insertionSort (fun a b => keyLe a.1 b.1 = true)
        (fs.map (fun q => (q.1, serialize q.2))) =
      (List.insertionSort (fun a b => keyLe a.1 b.1 = true) fs).map
        (fun q => (q.1, serialize q.2))
  | [] => rfl
  | p :: fs => by
      simp only [List.map_cons, List.insertionSort]
      rw [insertionSort_fmap fs,
        orderedInsert_fmap p (List.insertionSort (fun a b => keyLe a.1 b.1 = true) fs)]

/-- Marshalling an object renders exactly the members of the
key-sorted field list, in that order. -/
theorem serialize_obj_eq_render (fs : List (String × Json)) :
    serialize (Json.obj fs) = renderInOrder (sortFields fs) := by
  rw [serialize, renderInOrder]
  have hsp : sortPairs (serializeFields fs) =
      (sortFields fs).map (fun q => (q.1, serialize q.2)) := by
    rw [sortPairs, serializeFields_eq_map, insertionSort_fmap fs, sortFields]
  rw [hsp, List.map_map]
  rfl

/-! ## Claim C1 -/

/-- Modelled from the spec: C1's claimed output field order — the identity
field first, then the remaining included fields in ascending lexicographic
order. -/
def specC1Order (fs : List (String × Json)) : List (String × Json) :=
  fs.filter (fun p => p.1 == "ID") ++ sortFields (fs.filter (fun p => !(p.1 == "ID")))

/-- Counterexample to C1's output-order sentence: on the object
`\x7b"AA":0, "ID":1, "B":"0123456789"\x7d` with budget `20`, truncation keeps
`"ID"` and `"AA"`, but the logged bytes are
`\x7b"AA":0,"ID":1\x7d` — purely ascending (since `"AA" < "ID"`), not the
claimed identity-field-first order, which would give
`\x7b"ID":1,"AA":0\x7d`. -/
theorem claim_C1_counterexample :
    logResult (Json.obj [("AA", Json.num 0), ("ID", Json.num 1),
        ("B", Json.str "0123456789")]) 20 =
      some (String.mk "\x7b\"AA\":0,\"ID\":1\x7d".data) ∧
    String.mk (renderInOrder (specC1Order (truncObj
        [("AA", Json.num 0), ("ID", Json.num 1), ("B", Json.str "0123456789")]
        ((20 : Int).toNat)))) =
      String.mk "\x7b\"ID\":1,\"AA\":0\x7d".data ∧
    logResult (Json.obj [("AA", Json.num 0), ("ID", Json.num 1),
        ("B", Json.str "0123456789")]) 20 ≠
      some (String.mk (renderInOrder (specC1Order (truncObj
        [("AA", Json.num 0), ("ID", Json.num 1), ("B", Json.str "0123456789")]
        ((20 : Int).toNat))))) :=
  ⟨by decide, by decide, by decide⟩

/-- C1 (amended): truncation is deterministic — two iteration orders of the
same decoded object (permuted association lists with key uniqueness) log
identical bytes, hence include the same field set — and when the byte limit
is exceeded the output renders its included fields in **ascending
lexicographic key order throughout**; the identity field sits at its sorted
position (identity-first describes the inclusion priority of the greedy
loop, not the output byte order). -/
theorem claim_C1 (d₁ d₂ : List (String × Json)) (b : Int)
    (hperm : d₁.Perm d₂) (hnd : (d₁.map Prod.fst).Nodup)
    (htrig : 0 < b ∧ b < (blen (serialize (Json.obj d₁)) : Int)) :
    logResult (Json.obj d₁) b = logResult (Json.obj d₂) b ∧
    logResult (Json.obj d₁) b =
      some (String.mk (renderInOrder (sortFields (truncObj d₁ b.toNat)))) := by
  constructor
  · rw [logResult_obj, logResult_obj, serialize_obj_perm hperm hnd,
      truncObj_perm b.toNat hperm hnd]
  · rw [logResult_obj, if_pos htrig, serialize_obj_eq_render]

/-- Witness for C1 (amended): two iteration orders of the same three-field
object at budget 20. -/
theorem claim_C1_witness :
    ([("AA", Json.num 0), ("ID", Json.num 1), ("B", Json.str "0123456789")] :
        List (String × Json)).Perm
      [("ID", Json.num 1), ("B", Json.str "0123456789"), ("AA", Json.num 0)] ∧
    (logResult (Json.obj [("AA", Json.num 0), ("ID", Json.num 1),
         ("B", Json.str "0123456789")]) 20 =
       logResult (Json.obj [("ID", Json.num 1), ("B", Json.str "0123456789"),
         ("AA", Json.num 0)]) 20 ∧
     logResult (Json.obj [("AA", Json.num 0), ("ID", Json.num 1),
         ("B", Json.str "0123456789")]) 20 =
       some (String.mk (renderInOrder (sortFields (truncObj
         [("AA", Json.num 0), ("ID", Json.num 1), ("B", Json.str "0123456789")]
         ((20 : Int).toNat)))))) :=
  ⟨by decide, claim_C1 _ _ 20 (by decide) (by decide) (by decide)⟩

end Smartlog
